import Mathlib

set_option linter.unusedSectionVars false

/-!
# Verification of the MultiMap container (src/src/lib.rs)

`MultiMap<K, V>` is a thin wrapper around `HashMap<K, Vec<V>>`.  We embed the
container as an association list from keys to value lists; the underlying hash
map's key uniqueness is the predicate `NodupKeys`, established for all states
reachable from `new` through the state-changing operations.

Rust panics (the `v[0]` indexing in `get`, the `unwrap` in `get_mut`, the
`expect` in `Index::index`) are modelled with `Except String`, the error
carrying the panic message; `Option` models Rust's `Option`.

Mutation through the mutable references returned by `get_mut`, `get_vec_mut`,
`iter_mut` and `iter_all_mut` is modelled by explicit state-transforming
functions: the caller of `get_vec_mut` holds a `&mut Vec<V>` and may apply an
arbitrary rewrite to the vector, so the model takes an arbitrary
`f : List V → List V`.
-/

/-- The multimap state: an association list from keys to value vectors,
modelling the `inner: HashMap<K, Vec<V>>` field. -/
abbrev MultiMap (K V : Type) : Type := List (K × List V)

namespace MultiMap

variable {K V : Type} [DecidableEq K]

/-- Model of `MultiMap::new`: the empty container. -/
def new : MultiMap K V := []

/-- Model of `self.inner.get(k)`: the value vector of the first entry for `k`. -/
def lookup : MultiMap K V → K → Option (List V)
  | [], _ => none
  | p :: ps, k => if p.1 = k then some p.2 else lookup ps k

/-- Model of `MultiMap::contains_key` (delegates to `HashMap::contains_key`). -/
def contains_key (m : MultiMap K V) (k : K) : Bool :=
  (lookup m k).isSome

/-- Model of `MultiMap::len` (delegates to `HashMap::len`): the number of keys. -/
def len (m : MultiMap K V) : Nat := List.length m

/-- Rewrite the value vector of the (first) entry for `k` in place, modelling a
mutation through `HashMap::get_mut`. -/
def updateFirst (k : K) (f : List V → List V) : MultiMap K V → MultiMap K V
  | [] => []
  | p :: ps => if p.1 = k then (p.1, f p.2) :: ps else p :: updateFirst k f ps

/-- Model of `MultiMap::insert`: if the key is present, push `v` onto its vector
(through `inner.get_mut(&k).unwrap()`); otherwise insert a fresh one-element
vector. -/
def insert (m : MultiMap K V) (k : K) (v : V) : MultiMap K V :=
  if contains_key m k then updateFirst k (fun l => l ++ [v]) m
  else m ++ [(k, [v])]

/-- Drop the (first) entry for `k`, modelling `HashMap::remove`'s state
change. -/
def removeEntry (k : K) : MultiMap K V → MultiMap K V
  | [] => []
  | p :: ps => if p.1 = k then ps else p :: removeEntry k ps

/-- Model of `MultiMap::remove` (delegates to `HashMap::remove`): returns the removed
vector (or `none`) together with the container after the call. -/
def remove (m : MultiMap K V) (k : K) : Option (List V) × MultiMap K V :=
  match lookup m k with
  | none => (none, m)
  | some l => (some l, removeEntry k m)

/-- Model of `MultiMap::get`, that is `self.inner.get(k).map(|v| &v[0])`.  The `v[0]` indexing
panics on an empty vector, modelled by the `error` branch. -/
def get (m : MultiMap K V) (k : K) : Except String (Option V) :=
  match lookup m k with
  | none => Except.ok none
  | some l =>
    match List.get? l 0 with
    | none => Except.error "index out of bounds"
    | some v => Except.ok (some v)

/-- The read through `MultiMap::get_mut`:
`self.inner.get_mut(k).map(|mut v| v.get_mut(0).unwrap())`.  The `unwrap`
panics on an empty vector, modelled by the `error` branch. -/
def get_mut_read (m : MultiMap K V) (k : K) : Except String (Option V) :=
  match lookup m k with
  | none => Except.ok none
  | some l =>
    match List.get? l 0 with
    | none => Except.error "called Option::unwrap on a None value"
    | some v => Except.ok (some v)

/-- Writing `v'` through the mutable reference returned by
`MultiMap::get_mut(k)`: the first element of `k`'s vector is replaced; nothing
happens when the key is absent (the caller got `None`). -/
def get_mut_set (m : MultiMap K V) (k : K) (v' : V) : MultiMap K V :=
  if contains_key m k then updateFirst k (fun l => List.set l 0 v') m else m

/-- Model of `MultiMap::get_vec`, that is `self.inner.get(k)`. -/
def get_vec (m : MultiMap K V) (k : K) : Option (List V) :=
  lookup m k

/-- Mutation through the reference returned by `MultiMap::get_vec_mut(k)`:
the caller holds `&mut Vec<V>` and may apply an arbitrary rewrite `f` to the
vector; nothing happens when the key is absent (the caller got `None`). -/
def get_vec_mut_apply (m : MultiMap K V) (k : K) (f : List V → List V) :
    MultiMap K V :=
  if contains_key m k then updateFirst k f m else m

/-- An element-wise write through `get_vec_mut(k)`: set index `i` of the
vector (like `(*v)[i] = x` in the crate's doc example). -/
def get_vec_mut_set (m : MultiMap K V) (k : K) (i : Nat) (v' : V) :
    MultiMap K V :=
  get_vec_mut_apply m k (fun l => List.set l i v')

/-- Model of `MultiMap::is_empty` (delegates to `HashMap::is_empty`). -/
def is_empty (m : MultiMap K V) : Bool := len m == 0

/-- Model of `MultiMap::clear` (delegates to `HashMap::clear`). -/
def clear (_ : MultiMap K V) : MultiMap K V := []

/-- Model of `Index::index` for `MultiMap`:
`self.inner.get(index).map(|v| &v[0]).expect("no entry found for key")`.
Both panic sources (the indexing and the `expect`) are `error` branches. -/
def index (m : MultiMap K V) (k : K) : Except String V :=
  match lookup m k with
  | none => Except.error "no entry found for key"
  | some l =>
    match List.get? l 0 with
    | none => Except.error "index out of bounds"
    | some v => Except.ok v

/-- The sequence produced by `MultiMap::iter` (and, element-wise, `iter_mut`):
one `(key, first value)` pair per entry, where `Iter::next` computes
`(k, &v[0])`; `none` in the second component models the `v[0]` panic. -/
def iter (m : MultiMap K V) : List (K × Option V) :=
  List.map (fun p => (p.1, List.get? p.2 0)) m

/-- The sequence produced by `MultiMap::iter_all`: the underlying hash map's
entries. -/
def iter_all (m : MultiMap K V) : List (K × List V) := m

/-- Mutation through `MultiMap::iter_mut`: each yielded reference is
`&mut v[0]`, so the caller may rewrite each key's first value. -/
def iter_mut_apply (m : MultiMap K V) (f : K → V → V) : MultiMap K V :=
  List.map (fun p => (p.1,
    match p.2 with
    | [] => []
    | v :: vs => f p.1 v :: vs)) m

/-- Mutation through `MultiMap::iter_all_mut`: each yielded reference is a
`&mut Vec<V>`, so the caller may apply an arbitrary rewrite to every
vector. -/
def iter_all_mut_apply (m : MultiMap K V) (f : K → List V → List V) :
    MultiMap K V :=
  List.map (fun p => (p.1, f p.1 p.2)) m

/-- The total number of stored values. -/
def totalValues (m : MultiMap K V) : Nat :=
  List.sum (List.map (fun p => List.length p.2) m)

/-- The non-emptiness invariant: every key present in the container maps to a
non-empty value list. -/
def Inv (m : MultiMap K V) : Prop :=
  ∀ p ∈ m, p.2 ≠ ([] : List V)

/-- Key uniqueness, the representation invariant inherited from the
underlying hash map. -/
def NodupKeys (m : MultiMap K V) : Prop :=
  List.Nodup (List.map Prod.fst m)

instance decidableInv [DecidableEq V] (m : MultiMap K V) :
    Decidable (Inv m) :=
  inferInstanceAs (Decidable (∀ p ∈ m, p.2 ≠ ([] : List V)))

instance decidableNodupKeys (m : MultiMap K V) : Decidable (NodupKeys m) :=
  inferInstanceAs (Decidable (List.Nodup (List.map Prod.fst m)))

/-- The state-changing operations of the public API, for reasoning about
operation sequences. -/
inductive Op (K V : Type) where
  | insert : K → V → Op K V
  | remove : K → Op K V
  | clear : Op K V

/-- Apply one state-changing operation. -/
def applyOp (m : MultiMap K V) : Op K V → MultiMap K V
  | Op.insert k v => insert m k v
  | Op.remove k => (remove m k).2
  | Op.clear => clear m

/-- Run a sequence of state-changing operations. -/
def run (m : MultiMap K V) (ops : List (Op K V)) : MultiMap K V :=
  List.foldl applyOp m ops

/-- The number of values inserted by a sequence of operations. -/
def insCount : List (Op K V) → Nat
  | [] => 0
  | Op.insert _ _ :: ops => insCount ops + 1
  | _ :: ops => insCount ops

/-- The number of values removed by a sequence of operations run from `m`:
`remove k` removes the whole vector of `k` (if present), `clear` removes
everything. -/
def remCount (m : MultiMap K V) : List (Op K V) → Nat
  | [] => 0
  | op :: ops =>
      (match op with
       | Op.remove k => Option.getD (Option.map List.length (lookup m k)) 0
       | Op.clear => totalValues m
       | Op.insert _ _ => 0) + remCount (applyOp m op) ops

/-- Holds (as `true`) when the operation neither removes key `k` nor clears the map. -/
def avoidsKey (k : K) : Op K V → Bool
  | Op.insert _ _ => true
  | Op.remove q => decide (q ≠ k)
  | Op.clear => false

/-- The values inserted under key `k` by a sequence of operations, in
order. -/
def insertedUnder (k : K) : List (Op K V) → List V
  | [] => []
  | Op.insert q v :: ops =>
      (if q = k then [v] else []) ++ insertedUnder k ops
  | Op.remove _ :: ops => insertedUnder k ops
  | Op.clear :: ops => insertedUnder k ops

end MultiMap

/-! ## Helper lemmas about the model -/

namespace MultiMap

variable {K V : Type} [DecidableEq K]

theorem lookup_eq_none_iff (m : MultiMap K V) (k : K) :
    lookup m k = none ↔ k ∉ List.map Prod.fst m := by
  induction m with
  | nil => simp [lookup]
  | cons p ps ih =>
    by_cases h : p.1 = k
    · simp [lookup, h]
    · simp [lookup, h, ih, Ne.symm h]

theorem contains_key_eq_false_iff (m : MultiMap K V) (k : K) :
    contains_key m k = false ↔ lookup m k = none := by
  unfold contains_key
  cases lookup m k <;> simp

theorem contains_key_eq_true_iff (m : MultiMap K V) (k : K) :
    contains_key m k = true ↔ ∃ l, lookup m k = some l := by
  unfold contains_key
  cases lookup m k <;> simp

theorem lookup_updateFirst_self {m : MultiMap K V} {k : K} {l : List V}
    (f : List V → List V) (h : lookup m k = some l) :
    lookup (updateFirst k f m) k = some (f l) := by
  induction m with
  | nil => simp [lookup] at h
  | cons p ps ih =>
    by_cases hpk : p.1 = k
    · simp [lookup, hpk] at h
      simp [updateFirst, lookup, hpk, h]
    · simp [lookup, hpk] at h
      simp [updateFirst, lookup, hpk, ih h]

theorem lookup_updateFirst_ne {q k : K} (hqk : q ≠ k)
    (f : List V → List V) (m : MultiMap K V) :
    lookup (updateFirst q f m) k = lookup m k := by
  induction m with
  | nil => simp [updateFirst]
  | cons p ps ih =>
    by_cases hpq : p.1 = q
    · have hpk : p.1 ≠ k := by rw [hpq]; exact hqk
      simp [updateFirst, lookup, hpq, hpk, hqk]
    · by_cases hpk : p.1 = k
      · simp [updateFirst, lookup, hpq, hpk, Ne.symm hqk]
      · simp [updateFirst, lookup, hpq, hpk, ih]

theorem map_fst_updateFirst (q : K) (f : List V → List V) (m : MultiMap K V) :
    List.map Prod.fst (updateFirst q f m) = List.map Prod.fst m := by
  induction m with
  | nil => rfl
  | cons p ps ih =>
    by_cases hpq : p.1 = q
    · simp [updateFirst, hpq]
    · simp [updateFirst, hpq, ih]

theorem len_updateFirst (q : K) (f : List V → List V) (m : MultiMap K V) :
    len (updateFirst q f m) = len m := by
  have h := map_fst_updateFirst q f m
  have h1 := congrArg List.length h
  simpa [len] using h1

theorem lookup_append_lt {m : MultiMap K V} {k : K} {l : List V}
    (h : lookup m k = some l) (m' : MultiMap K V) :
    lookup (m ++ m') k = some l := by
  induction m with
  | nil => simp [lookup] at h
  | cons p ps ih =>
    by_cases hpk : p.1 = k
    · simp [lookup, hpk] at h
      simp [lookup, hpk, h]
    · simp [lookup, hpk] at h
      simp [lookup, hpk, ih h]

theorem lookup_append_none {m : MultiMap K V} {k : K}
    (h : lookup m k = none) (l : List V) :
    lookup (m ++ [(k, l)]) k = some l := by
  induction m with
  | nil => simp [lookup]
  | cons p ps ih =>
    by_cases hpk : p.1 = k
    · simp [lookup, hpk] at h
    · simp [lookup, hpk] at h
      simp [lookup, hpk, ih h]

theorem lookup_append_single_ne {q k : K} (hqk : q ≠ k)
    (m : MultiMap K V) (l : List V) :
    lookup (m ++ [(q, l)]) k = lookup m k := by
  induction m with
  | nil => simp [lookup, hqk]
  | cons p ps ih =>
    by_cases hpk : p.1 = k
    · simp [lookup, hpk]
    · simp [lookup, hpk, ih]

theorem lookup_removeEntry_ne {q k : K} (hqk : q ≠ k) (m : MultiMap K V) :
    lookup (removeEntry q m) k = lookup m k := by
  induction m with
  | nil => simp [removeEntry]
  | cons p ps ih =>
    by_cases hpq : p.1 = q
    · have hpk : p.1 ≠ k := by rw [hpq]; exact hqk
      simp [removeEntry, lookup, hpq, hpk, hqk]
    · by_cases hpk : p.1 = k
      · simp [removeEntry, lookup, hpq, hpk, Ne.symm hqk]
      · simp [removeEntry, lookup, hpq, hpk, ih]

theorem lookup_removeEntry_self {m : MultiMap K V} {k : K}
    (hnd : NodupKeys m) : lookup (removeEntry k m) k = none := by
  induction m with
  | nil => simp [removeEntry, lookup]
  | cons p ps ih =>
    unfold NodupKeys at hnd
    simp only [List.map_cons, List.nodup_cons] at hnd
    by_cases hpk : p.1 = k
    · rw [removeEntry]
      simp only [hpk, if_pos rfl]
      rw [lookup_eq_none_iff]
      rw [hpk] at hnd
      exact hnd.1
    · rw [removeEntry]
      simp only [hpk, if_neg hpk]
      simp only [lookup, if_neg hpk]
      exact ih hnd.2

theorem lookup_insert_self (m : MultiMap K V) (k : K) (v : V) :
    lookup (insert m k v) k =
      some (Option.getD (lookup m k) [] ++ [v]) := by
  unfold insert
  by_cases h : contains_key m k = true
  · obtain ⟨l, hl⟩ := (contains_key_eq_true_iff m k).mp h
    rw [if_pos h, lookup_updateFirst_self _ hl, hl]
    rfl
  · have hnone : lookup m k = none := by
      rw [← contains_key_eq_false_iff]
      simpa using h
    rw [if_neg h, lookup_append_none hnone, hnone]
    rfl

theorem lookup_insert_ne {q k : K} (hqk : q ≠ k) (m : MultiMap K V) (v : V) :
    lookup (insert m q v) k = lookup m k := by
  unfold insert
  by_cases h : contains_key m q = true
  · rw [if_pos h, lookup_updateFirst_ne hqk]
  · rw [if_neg h, lookup_append_single_ne hqk]

theorem len_insert_present {m : MultiMap K V} {k : K}
    (h : contains_key m k = true) (v : V) :
    len (insert m k v) = len m := by
  unfold insert
  rw [if_pos h, len_updateFirst]

theorem len_insert_absent {m : MultiMap K V} {k : K}
    (h : contains_key m k = false) (v : V) :
    len (insert m k v) = len m + 1 := by
  unfold insert
  rw [if_neg (by simp [h]), len, len, List.length_append]
  rfl

theorem totalValues_updateFirst_push {m : MultiMap K V} {k : K} {l : List V}
    (h : lookup m k = some l) (v : V) :
    totalValues (updateFirst k (fun t => t ++ [v]) m) = totalValues m + 1 := by
  induction m with
  | nil => simp [lookup] at h
  | cons p ps ih =>
    by_cases hpk : p.1 = k
    · simp only [updateFirst, if_pos hpk, totalValues, List.map_cons,
        List.sum_cons, List.length_append, List.length_cons, List.length_nil]
      have : totalValues (V := V) ps = totalValues ps := rfl
      simp [totalValues] at this ⊢
      omega
    · simp only [lookup, if_neg hpk] at h
      simp only [updateFirst, if_neg hpk, totalValues, List.map_cons,
        List.sum_cons]
      have hih := ih h
      simp only [totalValues] at hih
      omega

theorem totalValues_insert (m : MultiMap K V) (k : K) (v : V) :
    totalValues (insert m k v) = totalValues m + 1 := by
  unfold insert
  by_cases h : contains_key m k = true
  · obtain ⟨l, hl⟩ := (contains_key_eq_true_iff m k).mp h
    rw [if_pos h, totalValues_updateFirst_push hl]
  · rw [if_neg h]
    simp [totalValues]

theorem totalValues_removeEntry {m : MultiMap K V} {k : K} {l : List V}
    (h : lookup m k = some l) :
    totalValues (removeEntry k m) + List.length l = totalValues m := by
  induction m with
  | nil => simp [lookup] at h
  | cons p ps ih =>
    by_cases hpk : p.1 = k
    · simp only [lookup, if_pos hpk, Option.some.injEq] at h
      simp only [removeEntry, if_pos hpk, totalValues, List.map_cons,
        List.sum_cons]
      rw [h]
      omega
    · simp only [lookup, if_neg hpk] at h
      simp only [removeEntry, if_neg hpk, totalValues, List.map_cons,
        List.sum_cons]
      have hih := ih h
      simp only [totalValues] at hih
      omega

theorem mem_updateFirst {m : MultiMap K V} {k : K} {f : List V → List V}
    {p : K × List V} (hp : p ∈ updateFirst k f m) :
    p ∈ m ∨ ∃ l, lookup m k = some l ∧ p = (k, f l) := by
  induction m with
  | nil => simp [updateFirst] at hp
  | cons q qs ih =>
    by_cases hqk : q.1 = k
    · simp only [updateFirst, if_pos hqk] at hp
      rcases List.mem_cons.mp hp with h | h
      · right
        exact ⟨q.2, by simp [lookup, hqk], by rw [h, ← hqk]⟩
      · left
        exact List.mem_cons_of_mem _ h
    · simp only [updateFirst, if_neg hqk] at hp
      rcases List.mem_cons.mp hp with h | h
      · left
        exact h ▸ List.mem_cons_self _ _
      · rcases ih h with h1 | ⟨l, hl, hpl⟩
        · left
          exact List.mem_cons_of_mem _ h1
        · right
          exact ⟨l, by simp [lookup, hqk, hl], hpl⟩

theorem mem_removeEntry {m : MultiMap K V} {k : K} {p : K × List V}
    (hp : p ∈ removeEntry k m) : p ∈ m := by
  induction m with
  | nil => simp [removeEntry] at hp
  | cons q qs ih =>
    by_cases hqk : q.1 = k
    · simp only [removeEntry, if_pos hqk] at hp
      exact List.mem_cons_of_mem _ hp
    · simp only [removeEntry, if_neg hqk] at hp
      rcases List.mem_cons.mp hp with h | h
      · exact h ▸ List.mem_cons_self _ _
      · exact List.mem_cons_of_mem _ (ih h)

theorem lookup_mem {m : MultiMap K V} {k : K} {l : List V}
    (h : lookup m k = some l) : (k, l) ∈ m := by
  induction m with
  | nil => simp [lookup] at h
  | cons q qs ih =>
    obtain ⟨a, b⟩ := q
    by_cases hqk : a = k
    · simp [lookup, hqk] at h
      rw [List.mem_cons]
      left
      rw [hqk, h]
    · simp [lookup, hqk] at h
      exact List.mem_cons_of_mem _ (ih h)

theorem Inv_new : Inv (new : MultiMap K V) := by
  intro p hp
  simp [new] at hp

theorem Inv_insert {m : MultiMap K V} (hm : Inv m) (k : K) (v : V) :
    Inv (insert m k v) := by
  unfold insert
  by_cases h : contains_key m k = true
  · rw [if_pos h]
    intro p hp
    rcases mem_updateFirst hp with h1 | ⟨l, _, hpl⟩
    · exact hm p h1
    · rw [hpl]
      simp
  · rw [if_neg h]
    intro p hp
    rcases List.mem_append.mp hp with h1 | h1
    · exact hm p h1
    · simp at h1
      rw [h1]
      simp

theorem Inv_remove {m : MultiMap K V} (hm : Inv m) (k : K) :
    Inv (remove m k).2 := by
  unfold remove
  cases h : lookup m k with
  | none => exact hm
  | some l =>
    intro p hp
    exact hm p (mem_removeEntry hp)

theorem Inv_clear (m : MultiMap K V) : Inv (clear m) := by
  intro p hp
  simp [clear] at hp

theorem Inv_get_mut_set {m : MultiMap K V} (hm : Inv m) (k : K) (v' : V) :
    Inv (get_mut_set m k v') := by
  unfold get_mut_set
  by_cases h : contains_key m k = true
  · rw [if_pos h]
    intro p hp
    rcases mem_updateFirst hp with h1 | ⟨l, hl, hpl⟩
    · exact hm p h1
    · rw [hpl]
      intro hcon
      apply hm (k, l) (lookup_mem hl)
      have hlen := congrArg List.length hcon
      rw [List.length_set] at hlen
      exact List.length_eq_zero.mp hlen
  · rw [if_neg h]
    exact hm

theorem Inv_get_vec_mut_apply {m : MultiMap K V} (hm : Inv m) (k : K)
    {f : List V → List V} (hf : ∀ l, l ≠ [] → f l ≠ []) :
    Inv (get_vec_mut_apply m k f) := by
  unfold get_vec_mut_apply
  by_cases h : contains_key m k = true
  · rw [if_pos h]
    intro p hp
    rcases mem_updateFirst hp with h1 | ⟨l, hl, hpl⟩
    · exact hm p h1
    · rw [hpl]
      exact hf l (hm (k, l) (lookup_mem hl))
  · rw [if_neg h]
    exact hm

theorem Inv_iter_mut_apply {m : MultiMap K V} (hm : Inv m) (f : K → V → V) :
    Inv (iter_mut_apply m f) := by
  intro p hp
  unfold iter_mut_apply at hp
  rcases List.mem_map.mp hp with ⟨q, hq, hpq⟩
  cases hl : q.2 with
  | nil => exact absurd hl (hm q hq)
  | cons v vs =>
    rw [← hpq, hl]
    simp

theorem Inv_iter_all_mut_apply {m : MultiMap K V} (hm : Inv m)
    {f : K → List V → List V} (hf : ∀ k l, l ≠ [] → f k l ≠ []) :
    Inv (iter_all_mut_apply m f) := by
  intro p hp
  unfold iter_all_mut_apply at hp
  rcases List.mem_map.mp hp with ⟨q, hq, hpq⟩
  rw [← hpq]
  exact hf q.1 q.2 (hm q hq)

theorem NodupKeys_insert {m : MultiMap K V} (hm : NodupKeys m) (k : K)
    (v : V) : NodupKeys (insert m k v) := by
  unfold insert
  by_cases h : contains_key m k = true
  · rw [if_pos h]
    unfold NodupKeys
    rw [map_fst_updateFirst]
    exact hm
  · rw [if_neg h]
    unfold NodupKeys
    rw [List.map_append]
    simp only [List.map_cons, List.map_nil]
    rw [List.nodup_append]
    refine ⟨hm, List.nodup_singleton k, ?_⟩
    intro a ha hak
    simp at hak
    rw [hak] at ha
    have hnone : lookup m k = none := by
      rw [← contains_key_eq_false_iff]
      simpa using h
    exact (lookup_eq_none_iff m k).mp hnone ha

theorem removeEntry_sublist (k : K) (m : MultiMap K V) :
    List.Sublist (removeEntry k m) m := by
  induction m with
  | nil => simp [removeEntry]
  | cons p ps ih =>
    by_cases hpk : p.1 = k
    · rw [removeEntry, if_pos hpk]
      exact List.sublist_cons_of_sublist p (List.Sublist.refl ps)
    · rw [removeEntry, if_neg hpk]
      exact List.Sublist.cons₂ p ih

theorem NodupKeys_remove {m : MultiMap K V} (hm : NodupKeys m) (k : K) :
    NodupKeys (remove m k).2 := by
  unfold remove
  cases h : lookup m k with
  | none => exact hm
  | some l =>
    unfold NodupKeys
    exact List.Nodup.sublist (List.Sublist.map Prod.fst
      (removeEntry_sublist k m)) hm

theorem run_nil (m : MultiMap K V) : run m [] = m := rfl

theorem run_cons (m : MultiMap K V) (op : Op K V) (ops : List (Op K V)) :
    run m (op :: ops) = run (applyOp m op) ops := rfl

theorem lookup_remove_snd {q k : K} (hqk : q ≠ k) (m : MultiMap K V) :
    lookup (remove m q).2 k = lookup m k := by
  unfold remove
  cases h : lookup m q with
  | none => rfl
  | some l =>
    exact lookup_removeEntry_ne hqk m

theorem Inv_applyOp {m : MultiMap K V} (hm : Inv m) (op : Op K V) :
    Inv (applyOp m op) := by
  cases op with
  | insert k v => exact Inv_insert hm k v
  | remove k => exact Inv_remove hm k
  | clear => exact Inv_clear m

theorem Inv_run {m : MultiMap K V} (hm : Inv m) (ops : List (Op K V)) :
    Inv (run m ops) := by
  induction ops generalizing m with
  | nil => exact hm
  | cons op rest ih => exact ih (Inv_applyOp hm op)

theorem NodupKeys_applyOp {m : MultiMap K V} (hm : NodupKeys m)
    (op : Op K V) : NodupKeys (applyOp m op) := by
  cases op with
  | insert k v => exact NodupKeys_insert hm k v
  | remove k => exact NodupKeys_remove hm k
  | clear => exact List.nodup_nil

theorem NodupKeys_run {m : MultiMap K V} (hm : NodupKeys m)
    (ops : List (Op K V)) : NodupKeys (run m ops) := by
  induction ops generalizing m with
  | nil => exact hm
  | cons op rest ih => exact ih (NodupKeys_applyOp hm op)

theorem lookup_run_some {k : K} :
    ∀ (ops : List (Op K V)) (m : MultiMap K V) (l : List V),
      (∀ op ∈ ops, avoidsKey k op = true) →
      lookup m k = some l →
      lookup (run m ops) k = some (l ++ insertedUnder k ops) := by
  intro ops
  induction ops with
  | nil =>
    intro m l _ h
    simpa [run_nil, insertedUnder] using h
  | cons op rest ih =>
    intro m l hav h
    have havrest : ∀ o ∈ rest, avoidsKey k o = true :=
      fun o ho => hav o (List.mem_cons_of_mem _ ho)
    cases op with
    | insert q v =>
      rw [run_cons]
      by_cases hqk : q = k
      · subst hqk
        have h1 : lookup (insert m q v) q = some (l ++ [v]) := by
          rw [lookup_insert_self, h]
          rfl
        have h2 := ih (insert m q v) (l ++ [v]) havrest h1
        simp only [applyOp, insertedUnder, if_pos rfl]
        rw [h2]
        simp
      · have h1 : lookup (insert m q v) k = some l := by
          rw [lookup_insert_ne hqk, h]
        have h2 := ih (insert m q v) l havrest h1
        simp only [applyOp, insertedUnder, if_neg hqk]
        rw [h2]
        simp
    | remove q =>
      have hq : q ≠ k := by
        have := hav _ (List.mem_cons_self _ _)
        simpa [avoidsKey] using this
      rw [run_cons]
      have h1 : lookup (remove m q).2 k = some l := by
        rw [lookup_remove_snd hq, h]
      have h2 := ih (remove m q).2 l havrest h1
      simp only [applyOp, insertedUnder]
      exact h2
    | clear =>
      have := hav _ (List.mem_cons_self _ _)
      simp [avoidsKey] at this

theorem lookup_run_none {k : K} :
    ∀ (ops : List (Op K V)) (m : MultiMap K V),
      (∀ op ∈ ops, avoidsKey k op = true) →
      lookup m k = none →
      (insertedUnder k ops = [] → lookup (run m ops) k = none) ∧
      (insertedUnder k ops ≠ [] →
        lookup (run m ops) k = some (insertedUnder k ops)) := by
  intro ops
  induction ops with
  | nil =>
    intro m _ h
    refine ⟨fun _ => by simpa [run_nil] using h, fun hne => ?_⟩
    exact absurd rfl hne
  | cons op rest ih =>
    intro m hav h
    have havrest : ∀ o ∈ rest, avoidsKey k o = true :=
      fun o ho => hav o (List.mem_cons_of_mem _ ho)
    cases op with
    | insert q v =>
      rw [run_cons]
      by_cases hqk : q = k
      · subst hqk
        have h1 : lookup (insert m q v) q = some [v] := by
          rw [lookup_insert_self, h]
          rfl
        have h2 := lookup_run_some rest (insert m q v) [v] havrest h1
        constructor
        · intro hnil
          simp only [insertedUnder, if_pos rfl] at hnil
          simp at hnil
        · intro _
          simp only [applyOp, insertedUnder, if_pos rfl]
          rw [h2]
          simp
      · have h1 : lookup (insert m q v) k = none := by
          rw [lookup_insert_ne hqk, h]
        have h2 := ih (insert m q v) havrest h1
        simp only [applyOp, insertedUnder, if_neg hqk, List.nil_append]
        exact h2
    | remove q =>
      have hq : q ≠ k := by
        have := hav _ (List.mem_cons_self _ _)
        simpa [avoidsKey] using this
      rw [run_cons]
      have h1 : lookup (remove m q).2 k = none := by
        rw [lookup_remove_snd hq, h]
      have h2 := ih (remove m q).2 havrest h1
      simp only [applyOp, insertedUnder]
      exact h2
    | clear =>
      have := hav _ (List.mem_cons_self _ _)
      simp [avoidsKey] at this

theorem totalValues_run :
    ∀ (ops : List (Op K V)) (m : MultiMap K V),
      totalValues (run m ops) + remCount m ops =
        totalValues m + insCount ops := by
  intro ops
  induction ops with
  | nil =>
    intro m
    simp [run_nil, remCount, insCount]
  | cons op rest ih =>
    intro m
    cases op with
    | insert k v =>
      have h1 := ih (insert m k v)
      have h2 := totalValues_insert m k v
      rw [run_cons]
      simp only [applyOp, remCount, insCount] at *
      omega
    | remove k =>
      rw [run_cons]
      cases h : lookup m k with
      | none =>
        have happ : applyOp m (Op.remove k) = m := by
          simp [applyOp, remove, h]
        have h1 := ih m
        simp only [remCount, insCount, happ, h]
        simpa using h1
      | some l =>
        have happ : applyOp m (Op.remove k) = removeEntry k m := by
          simp [applyOp, remove, h]
        have h1 := ih (removeEntry k m)
        have h2 := totalValues_removeEntry h
        have he : Option.getD (Option.map List.length (lookup m k)) 0 =
            List.length l := by
          rw [h]
          rfl
        simp only [remCount, insCount, happ]
        omega
    | clear =>
      rw [run_cons]
      have happ : applyOp m Op.clear = [] := rfl
      have h1 := ih []
      simp only [remCount, insCount, happ] at *
      have h0 : totalValues ([] : MultiMap K V) = 0 := rfl
      omega

end MultiMap

/-! ## Claim theorems -/

namespace MultiMap

/-- C1: for every key `k` and every operation sequence that never removes `k`
and never clears the map, starting from the empty container, `get_vec k`
afterwards returns exactly the values inserted under `k` in insertion order,
and `get k` returns the first (earliest-inserted) of them. -/
theorem C1_get_vec_insertion_order {K V : Type} [DecidableEq K]
    (ops : List (Op K V)) (k : K)
    (hav : ∀ op ∈ ops, avoidsKey k op = true)
    (hne : insertedUnder k ops ≠ []) :
    get_vec (run (new : MultiMap K V) ops) k = some (insertedUnder k ops) ∧
    get (run (new : MultiMap K V) ops) k =
      Except.ok (List.head? (insertedUnder k ops)) := by
  have h0 : lookup (new : MultiMap K V) k = none := rfl
  have h := (lookup_run_none ops new hav h0).2 hne
  refine ⟨h, ?_⟩
  unfold get
  rw [h]
  cases hl : insertedUnder k ops with
  | nil => exact absurd hl hne
  | cons v vs => simp

/-- C1 witness: a concrete run with interleaved inserts under other keys and
a removal of another key. -/
theorem C1_get_vec_insertion_order_witness :
    get_vec (run (new : MultiMap Nat Nat)
      [Op.insert 1 10, Op.insert 2 99, Op.insert 1 20,
       Op.remove 2, Op.insert 1 30]) 1 = some [10, 20, 30] ∧
    get (run (new : MultiMap Nat Nat)
      [Op.insert 1 10, Op.insert 2 99, Op.insert 1 20,
       Op.remove 2, Op.insert 1 30]) 1 = Except.ok (some 10) := by
  have h := C1_get_vec_insertion_order
    [Op.insert 1 10, Op.insert 2 99, Op.insert 1 20,
     Op.remove 2, Op.insert 1 30] 1 (by decide) (by decide)
  exact h

/-- C3: inserting under an absent key creates the one-element vector `[v]`
and increases `len` by exactly one; inserting under a present key appends to
the existing vector and leaves `len` unchanged. -/
theorem C3_insert_len {K V : Type} [DecidableEq K]
    (m : MultiMap K V) (k : K) (v : V) :
    (contains_key m k = false →
      get_vec (insert m k v) k = some [v] ∧
      len (insert m k v) = len m + 1) ∧
    (contains_key m k = true →
      (∃ l, get_vec m k = some l ∧
        get_vec (insert m k v) k = some (l ++ [v])) ∧
      len (insert m k v) = len m) := by
  constructor
  · intro h
    have hnone : lookup m k = none := (contains_key_eq_false_iff m k).mp h
    constructor
    · unfold get_vec
      rw [lookup_insert_self, hnone]
      rfl
    · exact len_insert_absent h v
  · intro h
    obtain ⟨l, hl⟩ := (contains_key_eq_true_iff m k).mp h
    refine ⟨⟨l, hl, ?_⟩, len_insert_present h v⟩
    unfold get_vec
    rw [lookup_insert_self, hl]
    rfl

/-- C3 witness: both branches at concrete inputs. -/
theorem C3_insert_len_witness :
    (get_vec (insert (new : MultiMap Nat Nat) 1 5) 1 = some [5] ∧
      len (insert (new : MultiMap Nat Nat) 1 5) =
        len (new : MultiMap Nat Nat) + 1) ∧
    ((∃ l, get_vec (insert (new : MultiMap Nat Nat) 1 5) 1 = some l ∧
        get_vec (insert (insert (new : MultiMap Nat Nat) 1 5) 1 7) 1 =
          some (l ++ [7])) ∧
      len (insert (insert (new : MultiMap Nat Nat) 1 5) 1 7) =
        len (insert (new : MultiMap Nat Nat) 1 5)) := by
  refine ⟨(C3_insert_len new 1 5).1 (by decide), ?_⟩
  exact (C3_insert_len (insert new 1 5) 1 7).2 (by decide)

/-- C6: `iter` yields exactly `len` pairs and `iter_all` yields exactly `len`
pairs whose vector lengths sum to `totalValues`; along any operation sequence
from the empty container, `totalValues` plus the number of removed values
equals the number of inserted values. -/
theorem C6_iter_counts {K V : Type} [DecidableEq K]
    (m : MultiMap K V) (ops : List (Op K V)) :
    List.length (iter m) = len m ∧
    List.length (iter_all m) = len m ∧
    List.sum (List.map (fun p => List.length p.2) (iter_all m)) =
      totalValues m ∧
    totalValues (run (new : MultiMap K V) ops) + remCount new ops =
      insCount ops := by
  refine ⟨?_, rfl, rfl, ?_⟩
  · unfold iter len
    rw [List.length_map]
  · have h := totalValues_run ops new
    have h0 : totalValues (new : MultiMap K V) = 0 := rfl
    omega

/-- C9: after `clear`, the container is empty: `is_empty` is `true`, `len` is
`0`, and no key is contained. -/
theorem C9_clear_empties {K V : Type} [DecidableEq K] (m : MultiMap K V) :
    is_empty (clear m) = true ∧ len (clear m) = 0 ∧
    ∀ k, contains_key (clear m) k = false := by
  exact ⟨rfl, rfl, fun k => rfl⟩

/-- C4: removing a present key returns its full ordered vector, afterwards
the key is no longer contained and every other key is untouched; removing an
absent key returns `none` and leaves the container unchanged. -/
theorem C4_remove_atomic {K V : Type} [DecidableEq K]
    (m : MultiMap K V) (k : K) (hnd : NodupKeys m) :
    (contains_key m k = true →
      ∃ l, get_vec m k = some l ∧
        (remove m k).1 = some l ∧
        contains_key (remove m k).2 k = false ∧
        (∀ q, q ≠ k → get_vec (remove m k).2 q = get_vec m q)) ∧
    (contains_key m k = false → remove m k = (none, m)) := by
  constructor
  · intro h
    obtain ⟨l, hl⟩ := (contains_key_eq_true_iff m k).mp h
    have hsnd : (remove m k).2 = removeEntry k m := by
      unfold remove
      rw [hl]
    have hfst : (remove m k).1 = some l := by
      unfold remove
      rw [hl]
    refine ⟨l, hl, hfst, ?_, ?_⟩
    · rw [hsnd, contains_key, lookup_removeEntry_self hnd]
      rfl
    · intro q hq
      rw [hsnd]
      unfold get_vec
      exact lookup_removeEntry_ne (Ne.symm hq) m
  · intro h
    have hnone : lookup m k = none := (contains_key_eq_false_iff m k).mp h
    unfold remove
    rw [hnone]

/-- C4 witness: both branches on a concrete two-key container. -/
theorem C4_remove_atomic_witness :
    (∃ l, get_vec (insert (insert (insert (new : MultiMap Nat Nat)
        1 42) 1 1337) 2 9) 1 = some l ∧
      (remove (insert (insert (insert (new : MultiMap Nat Nat)
        1 42) 1 1337) 2 9) 1).1 = some l ∧
      contains_key (remove (insert (insert (insert (new : MultiMap Nat Nat)
        1 42) 1 1337) 2 9) 1).2 1 = false ∧
      (∀ q, q ≠ 1 → get_vec (remove (insert (insert (insert
        (new : MultiMap Nat Nat) 1 42) 1 1337) 2 9) 1).2 q =
        get_vec (insert (insert (insert (new : MultiMap Nat Nat)
          1 42) 1 1337) 2 9) q)) ∧
    remove (insert (insert (insert (new : MultiMap Nat Nat)
      1 42) 1 1337) 2 9) 5 = (none,
        insert (insert (insert (new : MultiMap Nat Nat) 1 42) 1 1337) 2 9) := by
  constructor
  · exact (C4_remove_atomic (insert (insert (insert new 1 42) 1 1337) 2 9)
      1 (by decide)).1 (by decide)
  · exact (C4_remove_atomic (insert (insert (insert new 1 42) 1 1337) 2 9)
      5 (by decide)).2 (by decide)

/-- C5: indexed access on an absent key aborts (the `expect` panic); on a
present key it returns the same value that `get` returns. -/
theorem C5_index_vs_get {K V : Type} [DecidableEq K]
    (m : MultiMap K V) (k : K) (hInv : Inv m) :
    (contains_key m k = false →
      index m k = Except.error "no entry found for key") ∧
    (contains_key m k = true →
      ∃ v, index m k = Except.ok v ∧ get m k = Except.ok (some v)) := by
  constructor
  · intro h
    have hnone : lookup m k = none := (contains_key_eq_false_iff m k).mp h
    unfold index
    rw [hnone]
  · intro h
    obtain ⟨l, hl⟩ := (contains_key_eq_true_iff m k).mp h
    have hne : l ≠ [] := hInv (k, l) (lookup_mem hl)
    cases l with
    | nil => exact absurd rfl hne
    | cons v vs =>
      refine ⟨v, ?_, ?_⟩
      · unfold index
        rw [hl]
        rfl
      · unfold get
        rw [hl]
        rfl

/-- C5 witness: both branches on a concrete container. -/
theorem C5_index_vs_get_witness :
    index (insert (new : MultiMap Nat Nat) 1 42) 3 =
      Except.error "no entry found for key" ∧
    (∃ v, index (insert (new : MultiMap Nat Nat) 1 42) 1 = Except.ok v ∧
      get (insert (new : MultiMap Nat Nat) 1 42) 1 = Except.ok (some v)) := by
  constructor
  · exact (C5_index_vs_get (insert new 1 42) 3 (by decide)).1 (by decide)
  · exact (C5_index_vs_get (insert new 1 42) 1 (by decide)).2 (by decide)

/-- C7 counterexample: the reference returned by `get_vec_mut` is a full
mutable borrow of the vector, so the caller CAN resize through it: pushing a
value through the reference grows the key's list from length 1 to length 2,
refuting the claim that the list cannot be resized through this accessor. -/
theorem C7_resize_counterexample :
    Option.map List.length
      (get_vec (insert (new : MultiMap Nat Nat) 1 42) 1) = some 1 ∧
    Option.map List.length
      (get_vec (get_vec_mut_apply (insert (new : MultiMap Nat Nat) 1 42) 1
        (fun l => l ++ [7])) 1) = some 2 := by
  refine ⟨rfl, rfl⟩

/-- C7 (amended): the caller of `get_vec_mut` may read or rewrite values of
the key's vector in place, and any element-wise write (setting an index)
preserves the vector's length, leaves every other key's vector untouched and
leaves the number of keys unchanged; the returned reference however permits
resizing, so only `insert` and `remove` — or a deliberate resize through the
returned vector reference — change list membership and length. -/
theorem C7_get_vec_mut_set_frame {K V : Type} [DecidableEq K]
    (m : MultiMap K V) (k : K) (i : Nat) (v' : V) :
    Option.map List.length (get_vec (get_vec_mut_set m k i v') k) =
      Option.map List.length (get_vec m k) ∧
    (∀ q, q ≠ k → get_vec (get_vec_mut_set m k i v') q = get_vec m q) ∧
    len (get_vec_mut_set m k i v') = len m := by
  unfold get_vec_mut_set get_vec_mut_apply
  by_cases h : contains_key m k = true
  · rw [if_pos h]
    obtain ⟨l, hl⟩ := (contains_key_eq_true_iff m k).mp h
    refine ⟨?_, ?_, len_updateFirst k _ m⟩
    · unfold get_vec
      rw [lookup_updateFirst_self _ hl, hl]
      simp
    · intro q hq
      unfold get_vec
      exact lookup_updateFirst_ne (Ne.symm hq) _ m
  · rw [if_neg h]
    exact ⟨rfl, fun q _ => rfl, rfl⟩

/-- C7 witness: an element-wise write on a concrete two-key container. -/
theorem C7_get_vec_mut_set_frame_witness :
    Option.map List.length (get_vec (get_vec_mut_set
      (insert (insert (insert (new : MultiMap Nat Nat) 1 42) 1 1337) 2 9)
      1 1 5) 1) =
      Option.map List.length (get_vec
        (insert (insert (insert (new : MultiMap Nat Nat) 1 42) 1 1337) 2 9)
        1) ∧
    get_vec (get_vec_mut_set
      (insert (insert (insert (new : MultiMap Nat Nat) 1 42) 1 1337) 2 9)
      1 1 5) 2 =
      get_vec (insert (insert (insert (new : MultiMap Nat Nat) 1 42) 1 1337)
        2 9) 2 := by
  have h := C7_get_vec_mut_set_frame
    (insert (insert (insert (new : MultiMap Nat Nat) 1 42) 1 1337) 2 9) 1 1 5
  exact ⟨h.1, h.2.1 2 (by decide)⟩

/-- C8: with key `k` present, writing `v'` through `get_mut` replaces exactly
index 0 of `k`'s vector: index 0 becomes `v'`, every other index is
unchanged, the vector's length is unchanged, every other key's vector is
untouched, the number of keys is unchanged, and `get_vec k` afterwards
returns precisely the once-updated vector. -/
theorem C8_get_mut_frame {K V : Type} [DecidableEq K]
    (m : MultiMap K V) (k : K) (v' : V) (hInv : Inv m)
    (hk : contains_key m k = true) :
    ∃ l, get_vec m k = some l ∧ l ≠ [] ∧
      get_vec (get_mut_set m k v') k = some (List.set l 0 v') ∧
      List.get? (List.set l 0 v') 0 = some v' ∧
      (∀ i, i ≠ 0 → List.get? (List.set l 0 v') i = List.get? l i) ∧
      List.length (List.set l 0 v') = List.length l ∧
      (∀ q, q ≠ k → get_vec (get_mut_set m k v') q = get_vec m q) ∧
      len (get_mut_set m k v') = len m := by
  obtain ⟨l, hl⟩ := (contains_key_eq_true_iff m k).mp hk
  have hne : l ≠ [] := hInv (k, l) (lookup_mem hl)
  have hupd : get_mut_set m k v' = updateFirst k (fun t => List.set t 0 v') m := by
    unfold get_mut_set
    rw [if_pos hk]
  refine ⟨l, hl, hne, ?_, ?_, ?_, List.length_set l 0 v', ?_, ?_⟩
  · rw [hupd]
    unfold get_vec
    exact lookup_updateFirst_self _ hl
  · cases l with
    | nil => exact absurd rfl hne
    | cons v vs => rfl
  · intro i hi
    cases l with
    | nil => exact absurd rfl hne
    | cons v vs =>
      cases i with
      | zero => exact absurd rfl hi
      | succ j => rfl
  · intro q hq
    rw [hupd]
    unfold get_vec
    exact lookup_updateFirst_ne (Ne.symm hq) _ m
  · rw [hupd]
    exact len_updateFirst k _ m

/-- C8 witness: a concrete first-value write on a two-value vector. -/
theorem C8_get_mut_frame_witness :
    ∃ l, get_vec (insert (insert (new : MultiMap Nat Nat) 1 42) 1 1337) 1 =
        some l ∧ l ≠ [] ∧
      get_vec (get_mut_set (insert (insert (new : MultiMap Nat Nat) 1 42)
        1 1337) 1 99) 1 = some (List.set l 0 99) ∧
      List.get? (List.set l 0 99) 0 = some 99 ∧
      (∀ i, i ≠ 0 → List.get? (List.set l 0 99) i = List.get? l i) ∧
      List.length (List.set l 0 99) = List.length l ∧
      (∀ q, q ≠ 1 → get_vec (get_mut_set (insert (insert
        (new : MultiMap Nat Nat) 1 42) 1 1337) 1 99) q =
        get_vec (insert (insert (new : MultiMap Nat Nat) 1 42) 1 1337) q) ∧
      len (get_mut_set (insert (insert (new : MultiMap Nat Nat) 1 42)
        1 1337) 1 99) =
        len (insert (insert (new : MultiMap Nat Nat) 1 42) 1 1337) := by
  exact C8_get_mut_frame (insert (insert new 1 42) 1 1337) 1 99
    (by decide) (by decide)

/-- C2 counterexample: the non-emptiness invariant is NOT preserved by
`get_vec_mut` — the caller holds a full mutable borrow of the vector and can
empty it (`v.clear()` in Rust), leaving the key present with an empty list. -/
theorem C2_invariant_counterexample :
    Inv (insert (new : MultiMap Nat Nat) 1 42) ∧
    ¬ Inv (get_vec_mut_apply (insert (new : MultiMap Nat Nat) 1 42) 1
        (fun _ => [])) := by
  constructor
  · decide
  · intro h
    exact h (1, []) (by decide) rfl

/-- C2 (amended): the non-emptiness invariant holds for the empty container
and is preserved by `insert`, `remove`, `clear`, by first-value writes through
`get_mut` and `iter_mut`, and by rewrites through `get_vec_mut` and
`iter_all_mut` that keep every rewritten vector non-empty; an emptying rewrite
through the latter two accessors can break it. -/
theorem C2_invariant_preserved {K V : Type} [DecidableEq K] :
    Inv (new : MultiMap K V) ∧
    (∀ (m : MultiMap K V) (k : K) (v : V), Inv m → Inv (insert m k v)) ∧
    (∀ (m : MultiMap K V) (k : K), Inv m → Inv (remove m k).2) ∧
    (∀ m : MultiMap K V, Inv (clear m)) ∧
    (∀ (m : MultiMap K V) (k : K) (v' : V), Inv m →
      Inv (get_mut_set m k v')) ∧
    (∀ (m : MultiMap K V) (f : K → V → V), Inv m →
      Inv (iter_mut_apply m f)) ∧
    (∀ (m : MultiMap K V) (k : K) (f : List V → List V), Inv m →
      (∀ l, l ≠ [] → f l ≠ []) → Inv (get_vec_mut_apply m k f)) ∧
    (∀ (m : MultiMap K V) (f : K → List V → List V), Inv m →
      (∀ k l, l ≠ [] → f k l ≠ []) → Inv (iter_all_mut_apply m f)) := by
  refine ⟨Inv_new, ?_, ?_, Inv_clear, ?_, ?_, ?_, ?_⟩
  · exact fun m k v hm => Inv_insert hm k v
  · exact fun m k hm => Inv_remove hm k
  · exact fun m k v' hm => Inv_get_mut_set hm k v'
  · exact fun m f hm => Inv_iter_mut_apply hm f
  · exact fun m k f hm hf => Inv_get_vec_mut_apply hm k hf
  · exact fun m f hm hf => Inv_iter_all_mut_apply hm hf

/-- C2 witness: the amended preservation applied at concrete inputs,
discharging the invariant and non-emptiness hypotheses there. -/
theorem C2_invariant_preserved_witness :
    Inv (insert (new : MultiMap Nat Nat) 1 42) ∧
    Inv (get_vec_mut_apply (insert (new : MultiMap Nat Nat) 1 42) 1
      (fun l => List.set l 0 7)) := by
  constructor
  · exact C2_invariant_preserved.2.1 new 1 42 (by decide)
  · refine C2_invariant_preserved.2.2.2.2.2.2.1
      (insert (new : MultiMap Nat Nat) 1 42) 1 (fun l => List.set l 0 7)
      (by decide) ?_
    intro l hl hc
    apply hl
    have hlen := congrArg List.length hc
    rw [List.length_set] at hlen
    exact List.length_eq_zero.mp hlen

/-- C10 counterexample: the panic branches ARE reachable through the public
API — after emptying a vector through `get_vec_mut`, the key is still present
but `get`, `get_mut` and indexed access all hit their panic branch. -/
theorem C10_panic_counterexample :
    contains_key (get_vec_mut_apply (insert (new : MultiMap Nat Nat) 1 42) 1
      (fun _ => [])) 1 = true ∧
    get (get_vec_mut_apply (insert (new : MultiMap Nat Nat) 1 42) 1
      (fun _ => [])) 1 = Except.error "index out of bounds" ∧
    get_mut_read (get_vec_mut_apply (insert (new : MultiMap Nat Nat) 1 42) 1
      (fun _ => [])) 1 =
      Except.error "called Option::unwrap on a None value" ∧
    index (get_vec_mut_apply (insert (new : MultiMap Nat Nat) 1 42) 1
      (fun _ => [])) 1 = Except.error "index out of bounds" := by
  exact ⟨rfl, rfl, rfl, rfl⟩

/-- C10 (amended): for every state reached from the empty container by the
state-changing operations `insert`, `remove` and `clear`, every stored vector
is non-empty, so the first-element accesses in `get`, `get_mut`, indexed
access and every `iter` step succeed whenever the key is present; the
invariant — hence this safety property — can however be defeated by emptying
a vector through `get_vec_mut`. -/
theorem C10_no_panic_reachable {K V : Type} [DecidableEq K]
    (ops : List (Op K V)) (k : K)
    (hk : contains_key (run (new : MultiMap K V) ops) k = true) :
    (∃ v, get (run (new : MultiMap K V) ops) k = Except.ok (some v)) ∧
    (∃ v, get_mut_read (run (new : MultiMap K V) ops) k =
      Except.ok (some v)) ∧
    (∃ v, index (run (new : MultiMap K V) ops) k = Except.ok v) ∧
    (∀ p ∈ iter (run (new : MultiMap K V) ops), Option.isSome p.2 = true) := by
  have hInv : Inv (run (new : MultiMap K V) ops) := Inv_run Inv_new ops
  obtain ⟨l, hl⟩ :=
    (contains_key_eq_true_iff (run (new : MultiMap K V) ops) k).mp hk
  have hne : l ≠ [] := hInv (k, l) (lookup_mem hl)
  refine ⟨?_, ?_, ?_, ?_⟩
  · cases l with
    | nil => exact absurd rfl hne
    | cons v vs =>
      refine ⟨v, ?_⟩
      unfold get
      rw [hl]
      rfl
  · cases l with
    | nil => exact absurd rfl hne
    | cons v vs =>
      refine ⟨v, ?_⟩
      unfold get_mut_read
      rw [hl]
      rfl
  · cases l with
    | nil => exact absurd rfl hne
    | cons v vs =>
      refine ⟨v, ?_⟩
      unfold index
      rw [hl]
      rfl
  · intro p hp
    unfold iter at hp
    rcases List.mem_map.mp hp with ⟨q, hq, hpq⟩
    have hqne : q.2 ≠ [] := hInv q hq
    cases hq2 : q.2 with
    | nil => exact absurd hq2 hqne
    | cons v vs =>
      rw [← hpq, hq2]
      rfl

/-- C10 witness: the amended safety applied on a concrete one-insert run. -/
theorem C10_no_panic_reachable_witness :
    (∃ v, get (run (new : MultiMap Nat Nat) [Op.insert 1 42]) 1 =
      Except.ok (some v)) ∧
    (∃ v, get_mut_read (run (new : MultiMap Nat Nat) [Op.insert 1 42]) 1 =
      Except.ok (some v)) ∧
    (∃ v, index (run (new : MultiMap Nat Nat) [Op.insert 1 42]) 1 =
      Except.ok v) ∧
    (∀ p ∈ iter (run (new : MultiMap Nat Nat) [Op.insert 1 42]),
      Option.isSome p.2 = true) := by
  exact C10_no_panic_reachable [Op.insert 1 42] 1 (by decide)

end MultiMap
